import Mathlib

/-!
Verification of the CropTransparentTriangles core: the alpha-threshold
policy, the maximal all-opaque rectangle finders of `src/main.js`
(row-histogram + monotonic stack) and `src/unnamed/part_000`
(row profile), and the crop-coordinate mapping of `runCrop`.

Opacity samples are modelled as rationals (they are 8/16-bit integers or
32-bit floats in the source; only comparison against the threshold is ever
performed).  Machine integers in the source (`Int32Array` histogram
entries, loop indices) are nonnegative and far below 2^31 throughout, so
they are modelled as `ℕ`.
-/

namespace Crop

/-- A found rectangle, `left`/`top` inclusive, `right`/`bottom` exclusive
(local grid coordinates), as produced by the histogram finder of
`src/main.js`. -/
@[ext]
structure Rect where
  left : ℕ
  top : ℕ
  right : ℕ
  bottom : ℕ
deriving DecidableEq, Repr

/-- The function `alphaThreshold` from `src/main.js` lines 13-18 (identical in
`src/unnamed/part_000`): threshold by component bit depth. -/
def alphaThreshold (componentSize : ℤ) : ℚ :=
  if componentSize = 16 then 256
  else if componentSize = 32 then 0.002
  else 2

/-- The constant `INSET` from `src/main.js` line 10. -/
def INSET : ℤ := 1

/-- Index of the alpha component of pixel `(x, y)` in the flat RGBA buffer:
`row + x * 4 + 3` with `row = y * w * 4` (`src/main.js` lines 98-102). -/
def alphaIndex (w x y : ℕ) : ℕ :=
  y * w * 4 + x * 4 + 3

/-- The per-sample opacity test `data[row + x*4 + 3] >= THR` of
`src/main.js` line 102-103.  An out-of-range read yields `undefined` in JS
and the comparison is then false. -/
def opaqueAt (data : List ℚ) (w : ℕ) (thr : ℚ) (x y : ℕ) : Bool :=
  match data[alphaIndex w x y]? with
  | some a => decide (thr ≤ a)
  | none => false

/-- The running best rectangle of the scan in `src/main.js` lines 94-95:
`bestArea` together with `bestL`, `bestR`, `bestT`, `bestB`. -/
structure Best where
  area : ℕ
  l : ℕ
  r : ℕ
  t : ℕ
  b : ℕ
deriving DecidableEq, Repr

/-- The update of `src/main.js` lines 121-127: a candidate replaces the
best only when its area is strictly greater (`area > bestArea`). -/
def bestUpd (best c : Best) : Best :=
  if best.area < c.area then c else best

/-- Left boundary of a popped candidate: one past the new stack top, or
`0` when the stack has emptied (`src/main.js` line 117). -/
def popLeft : List ℕ → ℕ
  | [] => 0
  | j :: _ => j + 1

/-- The candidate rectangle computed for a popped stack index `topIdx = t`
at scan position `i` of row `y` (`src/main.js` lines 112-119): height
`heights[topIdx]`, right boundary `i` (exclusive), left boundary one past
the new stack top (or `0` on an empty stack), bottom `y + 1` (exclusive),
top `bottom - height`. -/
def popCand (hs : List ℕ) (y i t : ℕ) (rest : List ℕ) : Best :=
  ⟨hs.getD t 0 * (i - popLeft rest), popLeft rest, i, (y + 1) - hs.getD t 0, y + 1⟩

/-- The inner `while` loop of `src/main.js` lines 111-129: pop stack
indices whose height exceeds the current height, recording each popped
candidate (heights `<= 0` are skipped by the `continue` on line 114).
The stack is a LIFO of column indices with its top at the list head. -/
def popLoop (hs : List ℕ) (y i curH : ℕ) : List ℕ → Best → List ℕ × Best
  | [], best => ([], best)
  | t :: rest, best =>
    if curH < hs.getD t 0 then
      popLoop hs y i curH rest
        (if hs.getD t 0 = 0 then best else bestUpd best (popCand hs y i t rest))
    else (t :: rest, best)

/-- The `for (let i = 0; i <= w; i++)` loop of `src/main.js` lines
108-131, driven by the list of remaining scan positions: at each position
the current height is `heights[i]` (a virtual `0` at the sentinel
`i = w`), the pop loop runs, then `i` is pushed. -/
def histLoop (hs : List ℕ) (y w : ℕ) : List ℕ → List ℕ → Best → Best
  | [], _, best => best
  | i :: is, stack, best =>
    histLoop hs y w is
      (i :: (popLoop hs y i (if i = w then 0 else hs.getD i 0) stack best).1)
      (popLoop hs y i (if i = w then 0 else hs.getD i 0) stack best).2

/-- The per-row "largest rectangle in histogram" pass (`src/main.js` lines
106-131): positions `0` to `w` inclusive, starting from an empty stack. -/
def rowScan (hs : List ℕ) (y w : ℕ) (best : Best) : Best :=
  histLoop hs y w (List.range' 0 (w + 1)) [] best

/-- The histogram update of `src/main.js` lines 100-104:
`heights[x] = (a >= THR) ? heights[x] + 1 : 0` for each column `x`. -/
def updateHeights (opq : ℕ → ℕ → Bool) (y w : ℕ) (heights : List ℕ) : List ℕ :=
  (List.range w).map fun x => if opq x y then heights.getD x 0 + 1 else 0

/-- The outer row loop of `src/main.js` lines 97-132, driven by the list
of remaining row indices, carrying the histogram and the best rectangle. -/
def rowsLoop (opq : ℕ → ℕ → Bool) (w : ℕ) : List ℕ → List ℕ → Best → Best
  | [], _, best => best
  | y :: ys, heights, best =>
    rowsLoop opq w ys (updateHeights opq y w heights)
      (rowScan (updateHeights opq y w heights) y w best)

/-- The full scan of `src/main.js` lines 92-132: histogram initialised to
zeros (`new Int32Array(w)`), best initialised to area `0`. -/
def findBest (opq : ℕ → ℕ → Bool) (w h : ℕ) : Best :=
  rowsLoop opq w (List.range' 0 h) (List.replicate w 0) ⟨0, 0, 0, 0, 0⟩

/-- The rectangle finder of `src/main.js` lines 92-137: `None` when
`bestArea <= 0` (line 134), otherwise the best rectangle. -/
def findMaxRect (opq : ℕ → ℕ → Bool) (w h : ℕ) : Option Rect :=
  if (findBest opq w h).area = 0 then none
  else some ⟨(findBest opq w h).l, (findBest opq w h).t,
    (findBest opq w h).r, (findBest opq w h).b⟩

/-- The finder applied to a flat RGBA sample buffer, reading only the
4th component of each pixel group. -/
def findMaxRectData (data : List ℚ) (w h : ℕ) (thr : ℚ) : Option Rect :=
  findMaxRect (opaqueAt data w thr) w h

/-! ### The row-profile rectangle search of `src/unnamed/part_000` -/

/-- A rectangle as recorded by `src/unnamed/part_000` (its `bestL`,
`bestR`, `bestT`, `bestB` hold `Int32Array` row/column indices, with `-1`
sentinels possible in the arrays they come from, hence `ℤ`). -/
structure PRect where
  left : ℤ
  top : ℤ
  right : ℤ
  bottom : ℤ
deriving DecidableEq, Repr

/-- The value `L[y]` of `src/unnamed/part_000` lines 95-106: index of the leftmost
opaque pixel of row `y`, `-1` when the row has none. -/
def pRowL (opq : ℕ → ℕ → Bool) (w y : ℕ) : ℤ :=
  match (List.range w).find? (fun x => opq x y) with
  | some l => (l : ℤ)
  | none => -1

/-- The value `R[y]` of `src/unnamed/part_000` lines 102-107: index of the
rightmost opaque pixel of row `y` (scan from the right), `-1` when the
row has none. -/
def pRowR (opq : ℕ → ℕ → Bool) (w y : ℕ) : ℤ :=
  match (List.range w).reverse.find? (fun x => opq x y) with
  | some r => (r : ℤ)
  | none => -1

/-- One pass of the `for` loop of `src/unnamed/part_000` lines 112-117
over the remaining row indices, carrying `(y0, maxW)`: rows with
`L[y] >= 0` and profile width `ww = R[y] - L[y]` strictly above the
running maximum replace the pair. -/
def pPickGo (opq : ℕ → ℕ → Bool) (w : ℕ) : List ℕ → ℤ × ℤ → ℤ × ℤ
  | [], p => p
  | y :: ys, p =>
    pPickGo opq w ys
      (if 0 ≤ pRowL opq w y then
        (if p.2 < pRowR opq w y - pRowL opq w y
          then ((y : ℤ), pRowR opq w y - pRowL opq w y) else p)
      else p)

/-- Step 4 of `src/unnamed/part_000` lines 110-117: the row `y0` with
maximum profile width, as the pair `(y0, maxW)`, both starting at `-1`. -/
def pPickRow (opq : ℕ → ℕ → Bool) (w h : ℕ) : ℤ × ℤ :=
  pPickGo opq w (List.range h) (-1, -1)

/-- The running best of `src/unnamed/part_000` lines 124-125. -/
structure PBest where
  area : ℤ
  l : ℤ
  r : ℤ
  t : ℤ
  b : ℤ
deriving DecidableEq, Repr

/-- The "up" loop of `src/unnamed/part_000` lines 127-142, driven by the
descending row list `[y0, y0-1, ..., 0]`: tighten `maxL`/`minR`, break on
an empty or inverted profile, record strictly larger areas. -/
def pUpLoop (L R : ℕ → ℤ) (y0 : ℕ) : List ℕ → ℤ → ℤ → PBest → PBest
  | [], _, _, best => best
  | y :: ys, maxL, minR, best =>
    if L y < 0 then best
    else
      let maxL' := max maxL (L y)
      let minR' := min minR (R y)
      if minR' ≤ maxL' then best
      else
        let area := ((y0 : ℤ) - (y : ℤ) + 1) * (minR' - maxL')
        let best' := if best.area < area then ⟨area, maxL', minR', (y : ℤ), (y0 : ℤ)⟩ else best
        pUpLoop L R y0 ys maxL' minR' best'

/-- The "down" loop of `src/unnamed/part_000` lines 144-159, driven by
the ascending row list `[y0, y0+1, ..., h-1]`. -/
def pDownLoop (L R : ℕ → ℤ) (y0 : ℕ) : List ℕ → ℤ → ℤ → PBest → PBest
  | [], _, _, best => best
  | y :: ys, maxL, minR, best =>
    if L y < 0 then best
    else
      let maxL' := max maxL (L y)
      let minR' := min minR (R y)
      if minR' ≤ maxL' then best
      else
        let area := ((y : ℤ) - (y0 : ℤ) + 1) * (minR' - maxL')
        let best' := if best.area < area then ⟨area, maxL', minR', (y0 : ℤ), (y : ℤ)⟩ else best
        pDownLoop L R y0 ys maxL' minR' best'

/-- The rectangle search of `src/unnamed/part_000` lines 89-159: row
profiles, widest row `y0` (early return when `y0 < 0`, lines 118-121),
then the up and down sweeps from `y0`; the best rectangle is initialised
to the degenerate `{L[y0], R[y0], y0, y0}` with area `0` (line 125). -/
def part000Find (opq : ℕ → ℕ → Bool) (w h : ℕ) : Option PRect :=
  let pick := pPickRow opq w h
  if pick.1 < 0 then none
  else
    let y0 := pick.1.toNat
    let L := fun y => pRowL opq w y
    let R := fun y => pRowR opq w y
    let init : PBest := ⟨0, L y0, R y0, (y0 : ℤ), (y0 : ℤ)⟩
    let b1 := pUpLoop L R y0 ((List.range (y0 + 1)).reverse) (L y0) (R y0) init
    let b2 := pDownLoop L R y0 (List.range' y0 (h - y0)) (L y0) (R y0) b1
    some ⟨b2.l, b2.t, b2.r, b2.b⟩

/-- The `part_000` search applied to a flat RGBA sample buffer. -/
def part000FindData (data : List ℚ) (w h : ℕ) (thr : ℚ) : Option PRect :=
  part000Find (opaqueAt data w thr) w h

/-- Returns `true` when the results of the two finders agree: both `None`, or both
rectangles with identical left, top, right and bottom. -/
def rectsAgree : Option Rect → Option PRect → Bool
  | none, none => true
  | some r, some p =>
    decide (p.left = (r.left : ℤ) ∧ p.top = (r.top : ℤ) ∧
      p.right = (r.right : ℤ) ∧ p.bottom = (r.bottom : ℤ))
  | _, _ => false

/-! ### The modal body of `runCrop`: early exits, disposal, crop mapping -/

/-- A document-space rectangle (`sourceBounds`, crop regions). -/
structure SB where
  left : ℤ
  top : ℤ
  right : ℤ
  bottom : ℤ
deriving DecidableEq, Repr

/-- The result of a successful `imaging.getPixels` acquisition:
`imageData.components`, `imageData.componentSize`, the chunky sample
buffer, and the optional `sourceBounds`. -/
structure Acq where
  components : ℤ
  componentSize : ℤ
  data : List ℚ
  sourceBounds : Option SB
deriving DecidableEq, Repr

/-- Observable outcome of one modal invocation: how many times
`imageObj.imageData.dispose()` ran, and the crop applied (if any). -/
structure Outcome where
  disposeCount : ℕ
  cropped : Option SB
deriving DecidableEq, Repr

/-- The coordinate mapping of `src/main.js` lines 141-148 (identical in
`src/unnamed/part_000` lines 162-169): offset, inward inset, clamp to the
document, and crop only a non-degenerate region. -/
def toCropRegion (r : SB) (offX offY inset docW docH : ℤ) : Option SB :=
  let cropL := min docW (max 0 (offX + r.left + inset))
  let cropR := min docW (max 0 (offX + r.right - inset))
  let cropT := min docH (max 0 (offY + r.top + inset))
  let cropB := min docH (max 0 (offY + r.bottom - inset))
  if cropL < cropR ∧ cropT < cropB then some ⟨cropL, cropT, cropR, cropB⟩ else none

/-- The `executeAsModal` body of `src/main.js` lines 47-150, from the
point the acquisition result is known (`acq = none` models
`!imageObj || !imageObj.imageData`).  Paths: missing image data (line
56), `components !== 4` (lines 62-65, dispose), empty data (lines 76-79,
dispose), no rectangle (lines 134-137, dispose), and the tail (lines
139-148) that crops when the inset region is non-degenerate — with no
dispose call on that tail. -/
def runCropModalMain (width height : ℤ) (acq : Option Acq) : Outcome :=
  match acq with
  | none => ⟨0, none⟩
  | some a =>
    if a.components ≠ 4 then ⟨1, none⟩
    else if a.data.length = 0 then ⟨1, none⟩
    else
      let sb := a.sourceBounds.getD ⟨0, 0, width, height⟩
      let w := (sb.right - sb.left).toNat
      let h := (sb.bottom - sb.top).toNat
      let thr := alphaThreshold a.componentSize
      match findMaxRectData a.data w h thr with
      | none => ⟨1, none⟩
      | some r =>
        match toCropRegion ⟨(r.left : ℤ), (r.top : ℤ), (r.right : ℤ), (r.bottom : ℤ)⟩
            sb.left sb.top INSET width height with
        | some c => ⟨0, some c⟩
        | none => ⟨0, none⟩

/-- Saturating clamp, as written in the spec's coordinate-mapping
contract: `clamp(v, lo, hi)`. -/
def clamp (v lo hi : ℤ) : ℤ := min hi (max lo v)

/-! ### Scan-order candidate instrumentation for the histogram finder

The stack evolution of `popLoop`/`histLoop` does not depend on the
running best; these definitions replay the loops, returning the stack
and the list of compared candidates in the order they are produced. -/

/-- The stack left behind by the pop loop. -/
def popStack (hs : List ℕ) (curH : ℕ) : List ℕ → List ℕ
  | [] => []
  | t :: rest => if curH < hs.getD t 0 then popStack hs curH rest else t :: rest

/-- The candidates compared by one run of the pop loop, in pop order. -/
def popCands (hs : List ℕ) (y i curH : ℕ) : List ℕ → List Best
  | [] => []
  | t :: rest =>
    if curH < hs.getD t 0 then
      (if hs.getD t 0 = 0 then [] else [popCand hs y i t rest]) ++ popCands hs y i curH rest
    else []

/-- The candidates compared across the scan positions of one row, in
scan order. -/
def histCands (hs : List ℕ) (y w : ℕ) : List ℕ → List ℕ → List Best
  | [], _ => []
  | i :: is, stack =>
    popCands hs y i (if i = w then 0 else hs.getD i 0) stack ++
      histCands hs y w is (i :: popStack hs (if i = w then 0 else hs.getD i 0) stack)

/-- The candidates compared across all rows, in scan order: topmost row
first, then earliest scan position within the row. -/
def rowsCands (opq : ℕ → ℕ → Bool) (w : ℕ) : List ℕ → List ℕ → List Best
  | [], _ => []
  | y :: ys, heights =>
    histCands (updateHeights opq y w heights) y w (List.range' 0 (w + 1)) [] ++
      rowsCands opq w ys (updateHeights opq y w heights)

/-- All candidates of one full scan, in scan order. -/
def scanCands (opq : ℕ → ℕ → Bool) (w h : ℕ) : List Best :=
  rowsCands opq w (List.range' 0 h) (List.replicate w 0)

/-- Maximum candidate area (0 when there are no candidates). -/
def candMax (cands : List Best) : ℕ :=
  cands.foldl (fun m c => max m c.area) 0

/-! ### Specification-side predicates and scan invariants -/

/-- Number of consecutive opaque rows at column `x` ending at row `y`
(inclusive) — the value `heights[x]` holds after the row-`y` histogram
update. -/
def runLen (opq : ℕ → ℕ → Bool) (x : ℕ) : ℕ → ℕ
  | 0 => if opq x 0 then 1 else 0
  | y + 1 => if opq x (y + 1) then runLen opq x y + 1 else 0

/-- The histogram contents after processing row `y`. -/
def rowHist (opq : ℕ → ℕ → Bool) (w y : ℕ) : List ℕ :=
  (List.range w).map fun x => runLen opq x y

/-- The histogram contents entering row `y`: all zeros before row `0`,
otherwise the histogram of the previous row. -/
def prevHist (opq : ℕ → ℕ → Bool) (w : ℕ) : ℕ → List ℕ
  | 0 => List.replicate w 0
  | y + 1 => rowHist opq w y

/-- Every pixel of the rectangle `[L, R) × [T, B)` is opaque. -/
def OpaqueRect (opq : ℕ → ℕ → Bool) (L T R B : ℕ) : Prop :=
  ∀ x y, L ≤ x → x < R → T ≤ y → y < B → opq x y = true

/-- A recorded best that denotes a genuine all-opaque rectangle of the
`w × h` grid with consistent area. -/
def GoodRect (opq : ℕ → ℕ → Bool) (w h : ℕ) (b : Best) : Prop :=
  b.area = (b.r - b.l) * (b.b - b.t) ∧ b.l < b.r ∧ b.t < b.b ∧
    b.r ≤ w ∧ b.b ≤ h ∧ OpaqueRect opq b.l b.t b.r b.b

/-- Soundness invariant of the running best: still the initial area-0
record, or a genuine rectangle. -/
def GoodBest (opq : ℕ → ℕ → Bool) (w h : ℕ) (b : Best) : Prop :=
  b.area = 0 ∨ GoodRect opq w h b

/-- Relation between a stack entry `a` and the entry `b` directly below
it: `b` is an earlier column, heights are non-decreasing towards the top
of the stack, and every column strictly between them is strictly taller
than `a`. -/
def Between (hs : List ℕ) (a b : ℕ) : Prop :=
  b < a ∧ hs.getD b 0 ≤ hs.getD a 0 ∧ ∀ m, b < m → m < a → hs.getD a 0 < hs.getD m 0

/-- Invariant of the monotonic stack at frontier `i` (all positions `< i`
scanned): chained `Between` entries, all entries before the frontier,
every column from the top entry to the frontier at least as tall as the
top, and every column before the bottom entry strictly taller than it. -/
structure SInv (hs : List ℕ) (i : ℕ) (stack : List ℕ) : Prop where
  chain : stack.Chain' (Between hs)
  lt_frontier : ∀ t ∈ stack, t < i
  topP : ∀ t rest, stack = t :: rest → ∀ m, t < m → m < i → hs.getD t 0 ≤ hs.getD m 0
  botP : ∀ b, stack.getLast? = some b → ∀ m, m < b → hs.getD b 0 < hs.getD m 0

/-- Pop-phase invariant at scan position `i` with current height `curH`:
every column strictly between the stack top (or the start) and `i` is
strictly taller than `curH`. -/
def PopAux (hs : List ℕ) (i curH : ℕ) : List ℕ → Prop
  | [] => ∀ m, m < i → curH < hs.getD m 0
  | t :: _ => ∀ m, t < m → m < i → curH < hs.getD m 0

/-- Completeness invariant of one row scan at frontier `i`: every
histogram rectangle `[l, r) × height ht` that closed before the frontier
is either already dominated by the best, or still extends to the
frontier. -/
def Pending (hs : List ℕ) (i : ℕ) (best : Best) : Prop :=
  ∀ l r ht, 1 ≤ ht → l < r → r ≤ i →
    (∀ m, l ≤ m → m < r → ht ≤ hs.getD m 0) →
    ht * (r - l) ≤ best.area ∨ ∀ m, l ≤ m → m < i → ht ≤ hs.getD m 0

/-- Completeness after the first `Y` rows: the best dominates every
all-opaque rectangle contained in them. -/
def Complete2D (opq : ℕ → ℕ → Bool) (w : ℕ) (best : Best) (Y : ℕ) : Prop :=
  ∀ L T R B, L < R → T < B → R ≤ w → B ≤ Y → OpaqueRect opq L T R B →
    (R - L) * (B - T) ≤ best.area

/-! ### Basic lemmas: list access, run lengths, histogram contents -/

lemma getD_map_range (f : ℕ → ℕ) {w x : ℕ} (hx : x < w) :
    ((List.range w).map f).getD x 0 = f x := by
  simp [List.getD_eq_getElem?_getD, List.getElem?_map, List.getElem?_range hx]

lemma getD_map_range_ge (f : ℕ → ℕ) {w x : ℕ} (hx : w ≤ x) :
    ((List.range w).map f).getD x 0 = 0 := by
  rw [List.getD_eq_getElem?_getD, List.getElem?_eq_none (by simpa using hx)]
  rfl

lemma getD_replicate_zero (w x : ℕ) : (List.replicate w (0 : ℕ)).getD x 0 = 0 := by
  rw [List.getD_eq_getElem?_getD, List.getElem?_replicate]
  split <;> rfl

lemma rowHist_getD (opq : ℕ → ℕ → Bool) (w y x : ℕ) :
    (rowHist opq w y).getD x 0 = if x < w then runLen opq x y else 0 := by
  rcases lt_or_le x w with h | h
  · rw [rowHist, getD_map_range _ h, if_pos h]
  · rw [rowHist, getD_map_range_ge _ h, if_neg (not_lt.2 h)]

lemma prevHist_getD_zero (opq : ℕ → ℕ → Bool) (w x : ℕ) :
    (prevHist opq w 0).getD x 0 = 0 :=
  getD_replicate_zero w x

lemma runLen_le (opq : ℕ → ℕ → Bool) (x : ℕ) : ∀ y, runLen opq x y ≤ y + 1
  | 0 => by rw [runLen]; split <;> omega
  | y + 1 => by
    rw [runLen]
    split
    · exact Nat.succ_le_succ (runLen_le opq x y)
    · omega

lemma runLen_opq (opq : ℕ → ℕ → Bool) (x : ℕ) :
    ∀ y d, d < runLen opq x y → opq x (y - d) = true
  | 0, d, hd => by
    rw [runLen] at hd
    split at hd
    · interval_cases d
      · simpa using ‹opq x 0 = true›
    · omega
  | y + 1, d, hd => by
    rw [runLen] at hd
    split at hd
    · match d with
      | 0 => simpa using ‹opq x (y + 1) = true›
      | d' + 1 =>
        have : y + 1 - (d' + 1) = y - d' := by omega
        rw [this]
        exact runLen_opq opq x y d' (by omega)
    · omega

lemma runLen_ge (opq : ℕ → ℕ → Bool) (x : ℕ) :
    ∀ y k, k ≤ y + 1 → (∀ d, d < k → opq x (y - d) = true) → k ≤ runLen opq x y
  | y, 0, _, _ => Nat.zero_le _
  | 0, k + 1, hk, hall => by
    have hk1 : k = 0 := by omega
    subst hk1
    have h0 : opq x 0 = true := by simpa using hall 0 (by omega)
    rw [runLen, if_pos h0]
  | y + 1, k + 1, hk, hall => by
    have h0 : opq x (y + 1) = true := by simpa using hall 0 (by omega)
    rw [runLen, if_pos h0]
    have hrec : k ≤ runLen opq x y := by
      refine runLen_ge opq x y k (by omega) fun d hd => ?_
      have := hall (d + 1) (by omega)
      have heq : y + 1 - (d + 1) = y - d := by omega
      rwa [heq] at this
    omega

lemma updateHeights_prevHist (opq : ℕ → ℕ → Bool) (w y : ℕ) :
    updateHeights opq y w (prevHist opq w y) = rowHist opq w y := by
  cases y with
  | zero =>
    refine List.map_congr_left fun x hx => ?_
    rw [prevHist_getD_zero, runLen]
  | succ y =>
    refine List.map_congr_left fun x hx => ?_
    have hxw : x < w := List.mem_range.1 hx
    rw [prevHist, rowHist_getD, if_pos hxw, runLen]

/-! ### Monotonicity of the running best -/

lemma bestUpd_area_le_left (best c : Best) : best.area ≤ (bestUpd best c).area := by
  rw [bestUpd]; split <;> omega

lemma bestUpd_area_le_right (best c : Best) : c.area ≤ (bestUpd best c).area := by
  rw [bestUpd]; split <;> omega

lemma popLoop_area_mono (hs : List ℕ) (y i curH : ℕ) :
    ∀ stack best, best.area ≤ (popLoop hs y i curH stack best).2.area
  | [], best => le_refl _
  | t :: rest, best => by
    rw [popLoop]
    split
    · refine le_trans ?_ (popLoop_area_mono hs y i curH rest _)
      split
      · exact le_refl _
      · exact bestUpd_area_le_left _ _
    · exact le_refl _

lemma histLoop_area_mono (hs : List ℕ) (y w : ℕ) :
    ∀ is stack best, best.area ≤ (histLoop hs y w is stack best).area
  | [], _, best => le_refl _
  | i :: is, stack, best => by
    rw [histLoop]
    exact le_trans (popLoop_area_mono hs y i _ stack best) (histLoop_area_mono hs y w is _ _)

lemma rowScan_area_mono (hs : List ℕ) (y w : ℕ) (best : Best) :
    best.area ≤ (rowScan hs y w best).area :=
  histLoop_area_mono hs y w _ [] best

lemma rowsLoop_area_mono (opq : ℕ → ℕ → Bool) (w : ℕ) :
    ∀ ys heights best, best.area ≤ (rowsLoop opq w ys heights best).area
  | [], _, best => le_refl _
  | y :: ys, heights, best => by
    rw [rowsLoop]
    exact le_trans (rowScan_area_mono _ y w best) (rowsLoop_area_mono opq w ys _ _)

/-! ### The all-transparent case: nothing is ever recorded -/

lemma popLoop_allZero (hs : List ℕ) (y i curH : ℕ) (hz : ∀ m, hs.getD m 0 = 0) :
    ∀ stack best, popLoop hs y i curH stack best = (stack, best)
  | [], best => rfl
  | t :: rest, best => by
    rw [popLoop, hz t, if_neg (by omega)]

lemma histLoop_allZero (hs : List ℕ) (y w : ℕ) (hz : ∀ m, hs.getD m 0 = 0) :
    ∀ is stack best, histLoop hs y w is stack best = best
  | [], _, _ => rfl
  | i :: is, stack, best => by
    rw [histLoop, popLoop_allZero hs y i _ hz]
    exact histLoop_allZero hs y w hz is _ best

lemma rowsLoop_allTransparent (opq : ℕ → ℕ → Bool) (w : ℕ) :
    ∀ ys heights best, (∀ y ∈ ys, ∀ x, x < w → opq x y = false) →
      (∀ m, heights.getD m 0 = 0) → rowsLoop opq w ys heights best = best
  | [], _, _, _, _ => rfl
  | y :: ys, heights, best, hopq, hz => by
    have hzup : ∀ m, (updateHeights opq y w heights).getD m 0 = 0 := by
      intro m
      rcases lt_or_le m w with hm | hm
      · rw [updateHeights, getD_map_range _ hm, hopq y (List.mem_cons_self y ys) m hm]
        rfl
      · exact getD_map_range_ge _ hm
    rw [rowsLoop, rowScan, histLoop_allZero _ y w hzup,
      rowsLoop_allTransparent opq w ys _ best
        (fun y' hy' => hopq y' (List.mem_cons_of_mem y hy')) hzup]

lemma findBest_allTransparent (opq : ℕ → ℕ → Bool) (w h : ℕ)
    (hopq : ∀ x y, x < w → y < h → opq x y = false) :
    findBest opq w h = ⟨0, 0, 0, 0, 0⟩ := by
  rw [findBest]
  refine rowsLoop_allTransparent opq w _ _ _ (fun y hy x hx => ?_)
    (fun m => getD_replicate_zero w m)
  have hyh : y < h := by
    have := List.mem_range'.1 hy
    omega
  exact hopq x y hx hyh

/-! ### The monotonic-stack invariant -/

lemma SInv_nil (hs : List ℕ) (i : ℕ) : SInv hs i [] := by
  refine ⟨List.chain'_nil, by simp, ?_, by simp⟩
  rintro t rest ⟨⟩

lemma SInv_pop {hs : List ℕ} {i t : ℕ} {rest : List ℕ}
    (h : SInv hs i (t :: rest)) : SInv hs i rest := by
  cases rest with
  | nil => exact SInv_nil hs i
  | cons j rest' =>
    have hbet : Between hs t j := (List.chain'_cons.1 h.chain).1
    refine ⟨(List.chain'_cons.1 h.chain).2,
      fun a ha => h.lt_frontier a (List.mem_cons_of_mem t ha), ?_, ?_⟩
    · rintro t' rest'' heq m hm1 hm2
      injection heq with h1 h2
      subst h1
      rcases lt_trichotomy m t with hmt | hmt | hmt
      · exact le_trans hbet.2.1 (le_of_lt (hbet.2.2 m hm1 hmt))
      · subst hmt
        exact hbet.2.1
      · exact le_trans hbet.2.1 (h.topP t (j :: rest') rfl m hmt hm2)
    · intro b hb m hm
      exact h.botP b (by rwa [List.getLast?_cons_cons]) m hm

lemma PopAux_pop {hs : List ℕ} {i curH t : ℕ} {rest : List ℕ}
    (hS : SInv hs i (t :: rest)) (hA : PopAux hs i curH (t :: rest))
    (hp : curH < hs.getD t 0) : PopAux hs i curH rest := by
  cases rest with
  | nil =>
    intro m hm
    rcases lt_trichotomy m t with hmt | hmt | hmt
    · exact lt_trans hp (hS.botP t rfl m hmt)
    · subst hmt
      exact hp
    · exact hA m hmt hm
  | cons j rest' =>
    intro m hmj hmi
    have hbet : Between hs t j := (List.chain'_cons.1 hS.chain).1
    rcases lt_trichotomy m t with hmt | hmt | hmt
    · exact lt_trans hp (hbet.2.2 m hmj hmt)
    · subst hmt
      exact hp
    · exact hA m hmt hmi

lemma SInv_push {hs : List ℕ} {i curH : ℕ} {stack : List ℕ}
    (hS : SInv hs i stack) (hA : PopAux hs i curH stack)
    (hexit : stack = [] ∨ ∃ t rest, stack = t :: rest ∧ hs.getD t 0 ≤ curH)
    (hcur : hs.getD i 0 = curH) :
    SInv hs (i + 1) (i :: stack) := by
  rcases hexit with hnil | ⟨t, rest, heq, hle⟩
  · subst hnil
    refine ⟨List.chain'_singleton i, ?_, ?_, ?_⟩
    · intro a ha
      rcases List.mem_singleton.1 ha with rfl
      omega
    · rintro t' rest' heq m hm1 hm2
      injection heq with h1 h2
      subst h1
      omega
    · intro b hb m hm
      have hbi : b = i := by
        have := hb
        simp at this
        omega
      subst hbi
      rw [hcur]
      exact hA m hm
  · subst heq
    refine ⟨?_, ?_, ?_, ?_⟩
    · rw [List.chain'_cons]
      refine ⟨⟨hS.lt_frontier t (List.mem_cons_self _ _), by rw [hcur]; exact hle,
        fun m hm1 hm2 => by rw [hcur]; exact hA m hm1 hm2⟩, hS.chain⟩
    · intro a ha
      rcases List.mem_cons.1 ha with rfl | ha'
      · omega
      · exact lt_trans (hS.lt_frontier a ha') (by omega)
    · rintro t' rest' heq m hm1 hm2
      injection heq with h1 h2
      subst h1
      omega
    · intro b hb m hm
      rw [List.getLast?_cons_cons] at hb
      exact hS.botP b hb m hm

/-! ### Soundness of recorded candidates -/

lemma goodBest_bestUpd {opq : ℕ → ℕ → Bool} {w h : ℕ} {best c : Best}
    (hb : GoodBest opq w h best) (hc : 0 < c.area → GoodRect opq w h c) :
    GoodBest opq w h (bestUpd best c) := by
  rw [bestUpd]
  split
  case isTrue hlt => exact Or.inr (hc (by omega))
  case isFalse => exact hb

lemma popCand_good (opq : ℕ → ℕ → Bool) {w h : ℕ} {hs : List ℕ} {y : ℕ} (hyh : y < h)
    (hhs : ∀ x, hs.getD x 0 = if x < w then runLen opq x y else 0)
    {i : ℕ} (hiw : i ≤ w) {t : ℕ} {rest : List ℕ}
    (hS : SInv hs i (t :: rest)) (hpos : 0 < (popCand hs y i t rest).area) :
    GoodRect opq w h (popCand hs y i t rest) := by
  have harea : (popCand hs y i t rest).area = hs.getD t 0 * (i - popLeft rest) := rfl
  rw [harea] at hpos
  have hht0 : 0 < hs.getD t 0 := by
    rcases Nat.eq_zero_or_pos (hs.getD t 0) with hz | hp
    · rw [hz, Nat.zero_mul] at hpos
      omega
    · exact hp
  have hsub0 : 0 < i - popLeft rest := by
    rcases Nat.eq_zero_or_pos (i - popLeft rest) with hz | hp
    · rw [hz, Nat.mul_zero] at hpos
      omega
    · exact hp
  have hli : popLeft rest < i := by omega
  have htw : t < w := by
    by_contra hc
    have hzero := hhs t
    rw [if_neg hc] at hzero
    omega
  have hrun : hs.getD t 0 = runLen opq t y := by rw [hhs t, if_pos htw]
  have hhty : hs.getD t 0 ≤ y + 1 := by
    rw [hrun]
    exact runLen_le opq t y
  have hcols : ∀ m, popLeft rest ≤ m → m < i → hs.getD t 0 ≤ hs.getD m 0 := by
    intro m hm1 hm2
    rcases lt_trichotomy m t with hmt | hmt | hmt
    · cases rest with
      | nil => exact le_of_lt (hS.botP t rfl m hmt)
      | cons j rest' =>
        have hbet : Between hs t j := (List.chain'_cons.1 hS.chain).1
        have hjm : j < m := by
          have hpl : popLeft (j :: rest') = j + 1 := rfl
          omega
        exact le_of_lt (hbet.2.2 m hjm hmt)
    · subst hmt
      exact le_refl _
    · exact hS.topP t rest rfl m hmt hm2
  refine ⟨?_, ?_, ?_, ?_, ?_, ?_⟩
  · show hs.getD t 0 * (i - popLeft rest) =
      (i - popLeft rest) * ((y + 1) - ((y + 1) - hs.getD t 0))
    have h1 : (y + 1) - ((y + 1) - hs.getD t 0) = hs.getD t 0 := by omega
    rw [h1, Nat.mul_comm]
  · exact hli
  · show (y + 1) - hs.getD t 0 < y + 1
    omega
  · exact hiw
  · show y + 1 ≤ h
    omega
  · show OpaqueRect opq (popLeft rest) ((y + 1) - hs.getD t 0) i (y + 1)
    intro x yy hx1 hx2 hy1 hy2
    have hxw : x < w := lt_of_lt_of_le hx2 hiw
    have hcol : hs.getD t 0 ≤ hs.getD x 0 := hcols x hx1 hx2
    have hrx : hs.getD x 0 = runLen opq x y := by rw [hhs x, if_pos hxw]
    have hlt : y - yy < runLen opq x y := by
      rw [← hrx]
      omega
    have hres := runLen_opq opq x y (y - yy) hlt
    have hd : y - (y - yy) = yy := by omega
    rwa [hd] at hres

/-! ### The pop loop: soundness, invariant preservation, completeness -/

lemma popLoop_sound (opq : ℕ → ℕ → Bool) {w h : ℕ} (hs : List ℕ) {y : ℕ} (hyh : y < h)
    (hhs : ∀ x, hs.getD x 0 = if x < w then runLen opq x y else 0)
    (i curH : ℕ) (hiw : i ≤ w) :
    ∀ stack best, SInv hs i stack → PopAux hs i curH stack →
      SInv hs i (popLoop hs y i curH stack best).1 ∧
      PopAux hs i curH (popLoop hs y i curH stack best).1 ∧
      ((popLoop hs y i curH stack best).1 = [] ∨
        ∃ t rest, (popLoop hs y i curH stack best).1 = t :: rest ∧ hs.getD t 0 ≤ curH) ∧
      (GoodBest opq w h best → GoodBest opq w h (popLoop hs y i curH stack best).2)
  | [], best, hS, hA => by
    rw [popLoop]
    exact ⟨hS, hA, Or.inl rfl, id⟩
  | t :: rest, best, hS, hA => by
    rw [popLoop]
    split
    case isTrue hp =>
      have hS' := SInv_pop hS
      have hA' := PopAux_pop hS hA hp
      have hrec := popLoop_sound opq hs hyh hhs i curH hiw rest
        (if hs.getD t 0 = 0 then best else bestUpd best (popCand hs y i t rest)) hS' hA'
      refine ⟨hrec.1, hrec.2.1, hrec.2.2.1, fun hg => hrec.2.2.2 ?_⟩
      split
      · exact hg
      · exact goodBest_bestUpd hg (fun hpos => popCand_good opq hyh hhs hiw hS hpos)
    case isFalse hp =>
      exact ⟨hS, hA, Or.inr ⟨t, rest, rfl, by omega⟩, id⟩

lemma popLoop_complete (hs : List ℕ) (y i curH : ℕ) (l ht : ℕ)
    (hall : ∀ m, l ≤ m → m < i → ht ≤ hs.getD m 0) (hcur : curH < ht) :
    ∀ rest t best, SInv hs i (t :: rest) → l ≤ t →
      ht * (i - l) ≤ (popLoop hs y i curH (t :: rest) best).2.area
  | rest, t, best, hS, hlt => by
    have hti : t < i := hS.lt_frontier t (List.mem_cons_self _ _)
    have hht : ht ≤ hs.getD t 0 := hall t hlt hti
    have hp : curH < hs.getD t 0 := lt_of_lt_of_le hcur hht
    have hne : ¬ hs.getD t 0 = 0 := by omega
    rw [popLoop, if_pos hp, if_neg hne]
    cases rest with
    | nil =>
      rw [popLoop]
      refine le_trans ?_ (bestUpd_area_le_right best _)
      show ht * (i - l) ≤ hs.getD t 0 * (i - popLeft ([] : List ℕ))
      have hpl : popLeft ([] : List ℕ) = 0 := rfl
      rw [hpl]
      exact Nat.mul_le_mul hht (Nat.sub_le_sub_left (Nat.zero_le l) i)
    | cons j rest' =>
      rcases le_or_lt l j with hlj | hjl
      · exact popLoop_complete hs y i curH l ht hall hcur rest' j
          (bestUpd best (popCand hs y i t (j :: rest'))) (SInv_pop hS) hlj
      · refine le_trans ?_ (popLoop_area_mono hs y i curH (j :: rest') _)
        refine le_trans ?_ (bestUpd_area_le_right best _)
        show ht * (i - l) ≤ hs.getD t 0 * (i - popLeft (j :: rest'))
        have hpl : popLeft (j :: rest') = j + 1 := rfl
        rw [hpl]
        exact Nat.mul_le_mul hht (Nat.sub_le_sub_left (by omega) i)

/-! ### The row scan: master invariant -/

lemma histLoop_master (opq : ℕ → ℕ → Bool) {w h : ℕ} (hs : List ℕ) {y : ℕ} (hyh : y < h)
    (hhs : ∀ x, hs.getD x 0 = if x < w then runLen opq x y else 0) :
    ∀ n i stack best, i + n = w + 1 →
      SInv hs i stack →
      ((i = 0 ∧ stack = []) ∨ ∃ rest, stack = (i - 1) :: rest) →
      GoodBest opq w h best →
      Pending hs i best →
      GoodBest opq w h (histLoop hs y w (List.range' i n) stack best) ∧
      Pending hs (w + 1) (histLoop hs y w (List.range' i n) stack best)
  | 0, i, stack, best, hsum, _, _, hgood, hpend => by
    have hi : i = w + 1 := by omega
    subst hi
    rw [show List.range' (w + 1) 0 = [] from rfl, histLoop]
    exact ⟨hgood, hpend⟩
  | n + 1, i, stack, best, hsum, hS, hshape, hgood, hpend => by
    have hiw : i ≤ w := by omega
    rw [List.range'_succ, histLoop]
    have hcur : hs.getD i 0 = (if i = w then 0 else hs.getD i 0) := by
      split
      case isTrue hw =>
        rw [hw, hhs w, if_neg (lt_irrefl w)]
      case isFalse => rfl
    have hA : PopAux hs i (if i = w then 0 else hs.getD i 0) stack := by
      rcases hshape with ⟨hi0, hst⟩ | ⟨rest, hst⟩
      · subst hst
        intro m hm
        omega
      · subst hst
        intro m hm1 hm2
        omega
    have hps := popLoop_sound opq hs hyh hhs i (if i = w then 0 else hs.getD i 0) hiw
      stack best hS hA
    have hpend' : Pending hs (i + 1)
        (popLoop hs y i (if i = w then 0 else hs.getD i 0) stack best).2 := by
      intro l r ht h1 h2 h3 hallr
      rcases Nat.lt_or_ge r (i + 1) with hri | hri
      · have hri' : r ≤ i := by omega
        rcases hpend l r ht h1 h2 hri' hallr with hdom | hopen
        · exact Or.inl (le_trans hdom (popLoop_area_mono hs y i _ stack best))
        · by_cases hc : ht ≤ hs.getD i 0
          · refine Or.inr fun m hm1 hm2 => ?_
            rcases Nat.lt_or_ge m i with hmi | hmi
            · exact hopen m hm1 hmi
            · have hmi' : m = i := by omega
              subst hmi'
              exact hc
          · have hcur2 : (if i = w then 0 else hs.getD i 0) < ht := by
              rw [← hcur]
              omega
            have hi1 : 1 ≤ i := by omega
            rcases hshape with ⟨hi0, _⟩ | ⟨rest, hst⟩
            · omega
            · subst hst
              have hcomp := popLoop_complete hs y i (if i = w then 0 else hs.getD i 0)
                l ht hopen hcur2 rest (i - 1) best hS (by omega)
              refine Or.inl (le_trans ?_ hcomp)
              exact Nat.mul_le_mul_left ht (Nat.sub_le_sub_right hri' l)
      · have hri' : r = i + 1 := by omega
        subst hri'
        exact Or.inr fun m hm1 hm2 => hallr m hm1 hm2
    have hSpush := SInv_push hps.1 hps.2.1 hps.2.2.1 hcur
    exact histLoop_master opq hs hyh hhs n (i + 1)
      (i :: (popLoop hs y i (if i = w then 0 else hs.getD i 0) stack best).1)
      (popLoop hs y i (if i = w then 0 else hs.getD i 0) stack best).2
      (by omega) hSpush (Or.inr ⟨_, by rw [Nat.add_sub_cancel]⟩)
      (hps.2.2.2 hgood) hpend'

/-- One full row scan: the result still satisfies the soundness invariant
and dominates every rectangle of the histogram of that row. -/
lemma rowScan_master (opq : ℕ → ℕ → Bool) {w h : ℕ} (hs : List ℕ) {y : ℕ} (hyh : y < h)
    (hhs : ∀ x, hs.getD x 0 = if x < w then runLen opq x y else 0)
    (best : Best) (hgood : GoodBest opq w h best) :
    GoodBest opq w h (rowScan hs y w best) ∧
      ∀ l r ht, 1 ≤ ht → l < r → r ≤ w →
        (∀ m, l ≤ m → m < r → ht ≤ hs.getD m 0) →
        ht * (r - l) ≤ (rowScan hs y w best).area := by
  have hpend0 : Pending hs 0 best := by
    intro l r ht h1 h2 h3 _
    omega
  have hm := histLoop_master opq hs hyh hhs (w + 1) 0 [] best (by omega)
    (SInv_nil hs 0) (Or.inl ⟨rfl, rfl⟩) hgood hpend0
  refine ⟨hm.1, fun l r ht h1 h2 h3 hall => ?_⟩
  rcases hm.2 l r ht h1 h2 (by omega) hall with hdom | hopen
  · exact hdom
  · have := hopen w (by omega) (by omega)
    rw [hhs w, if_neg (lt_irrefl w)] at this
    omega

/-! ### The row loop and the full-scan specification -/

lemma rowsLoop_master (opq : ℕ → ℕ → Bool) {w h : ℕ} :
    ∀ k y0 best, y0 + k = h →
      GoodBest opq w h best →
      Complete2D opq w best y0 →
      GoodBest opq w h (rowsLoop opq w (List.range' y0 k) (prevHist opq w y0) best) ∧
      Complete2D opq w (rowsLoop opq w (List.range' y0 k) (prevHist opq w y0) best) h
  | 0, y0, best, hsum, hgood, hcomp => by
    have hy : y0 = h := by omega
    rw [show List.range' y0 0 = [] from rfl, rowsLoop]
    exact ⟨hgood, hy ▸ hcomp⟩
  | k + 1, y0, best, hsum, hgood, hcomp => by
    have hyh : y0 < h := by omega
    rw [List.range'_succ, rowsLoop, updateHeights_prevHist]
    have hrm := rowScan_master opq (rowHist opq w y0) hyh
      (fun x => rowHist_getD opq w y0 x) best hgood
    have hcomp' : Complete2D opq w (rowScan (rowHist opq w y0) y0 w best) (y0 + 1) := by
      intro L T R B hLR hTB hRw hB hOp
      rcases Nat.lt_or_ge B (y0 + 1) with hBy | hBy
      · exact le_trans (hcomp L T R B hLR hTB hRw (by omega) hOp)
          (rowScan_area_mono _ y0 w best)
      · have hBeq : B = y0 + 1 := by omega
        have hcol : ∀ m, L ≤ m → m < R → B - T ≤ (rowHist opq w y0).getD m 0 := by
          intro m hm1 hm2
          rw [rowHist_getD, if_pos (lt_of_lt_of_le hm2 hRw)]
          refine runLen_ge opq m y0 (B - T) (by omega) fun d hd => ?_
          exact hOp m (y0 - d) hm1 hm2 (by omega) (by omega)
        have := hrm.2 L R (B - T) (by omega) hLR hRw hcol
        rw [Nat.mul_comm] at this
        exact this
    have hrecall := rowsLoop_master opq k (y0 + 1)
      (rowScan (rowHist opq w y0) y0 w best) (by omega) hrm.1 hcomp'
    rw [show prevHist opq w (y0 + 1) = rowHist opq w y0 from rfl] at hrecall
    exact hrecall

lemma findBest_spec (opq : ℕ → ℕ → Bool) (w h : ℕ) :
    GoodBest opq w h (findBest opq w h) ∧
      Complete2D opq w (findBest opq w h) h := by
  have hcomp0 : Complete2D opq w (⟨0, 0, 0, 0, 0⟩ : Best) 0 := by
    intro L T R B h1 h2 h3 h4 h5
    omega
  have := rowsLoop_master opq (w := w) (h := h) h 0 ⟨0, 0, 0, 0, 0⟩ (by omega)
    (Or.inl rfl) hcomp0
  exact this

lemma findBest_pos_of_opq (opq : ℕ → ℕ → Bool) (w h : ℕ) {x y : ℕ}
    (hx : x < w) (hy : y < h) (ho : opq x y = true) :
    1 ≤ (findBest opq w h).area := by
  have hop : OpaqueRect opq x y (x + 1) (y + 1) := by
    intro a b ha1 ha2 hb1 hb2
    have ha : a = x := by omega
    have hb : b = y := by omega
    subst ha
    subst hb
    exact ho
  have hc := (findBest_spec opq w h).2 x y (x + 1) (y + 1) (by omega) (by omega)
    (by omega) (by omega) hop
  have h1 : x + 1 - x = 1 := by omega
  have h2 : y + 1 - y = 1 := by omega
  rw [h1, h2] at hc
  simpa using hc

lemma findBest_zero_iff (opq : ℕ → ℕ → Bool) (w h : ℕ) :
    (findBest opq w h).area = 0 ↔ ∀ x y, x < w → y < h → opq x y = false := by
  constructor
  · intro hz x y hx hy
    by_contra hc
    have ho : opq x y = true := by
      cases hxy : opq x y
      · exact absurd hxy hc
      · rfl
    have := findBest_pos_of_opq opq w h hx hy ho
    omega
  · intro hall
    rw [findBest_allTransparent opq w h hall]

lemma findMaxRect_none_iff (opq : ℕ → ℕ → Bool) (w h : ℕ) :
    findMaxRect opq w h = none ↔ ∀ x y, x < w → y < h → opq x y = false := by
  rw [findMaxRect]
  constructor
  · intro hn
    rw [← findBest_zero_iff opq w h]
    by_contra hc
    rw [if_neg hc] at hn
    exact Option.some_ne_none _ hn
  · intro hall
    rw [if_pos ((findBest_zero_iff opq w h).2 hall)]

/-- Full specification of the `main.js` finder in the non-trivial case:
some opaque sample exists, and the result is a valid all-opaque rectangle
of maximal area. -/
lemma findMaxRect_spec (opq : ℕ → ℕ → Bool) (w h : ℕ) {x y : ℕ}
    (hx : x < w) (hy : y < h) (ho : opq x y = true) :
    ∃ r : Rect, findMaxRect opq w h = some r ∧
      r.left < r.right ∧ r.top < r.bottom ∧ r.right ≤ w ∧ r.bottom ≤ h ∧
      OpaqueRect opq r.left r.top r.right r.bottom ∧
      ∀ L T R B, L < R → T < B → R ≤ w → B ≤ h → OpaqueRect opq L T R B →
        (R - L) * (B - T) ≤ (r.right - r.left) * (r.bottom - r.top) := by
  have hpos := findBest_pos_of_opq opq w h hx hy ho
  have hspec := findBest_spec opq w h
  have hgr : GoodRect opq w h (findBest opq w h) := by
    rcases hspec.1 with hz | hg
    · omega
    · exact hg
  have hne : ¬ (findBest opq w h).area = 0 := by omega
  refine ⟨⟨(findBest opq w h).l, (findBest opq w h).t,
    (findBest opq w h).r, (findBest opq w h).b⟩, ?_, hgr.2.1, hgr.2.2.1,
    hgr.2.2.2.1, hgr.2.2.2.2.1, hgr.2.2.2.2.2, ?_⟩
  · rw [findMaxRect, if_neg hne]
  · intro L T R B h1 h2 h3 h4 h5
    have := hspec.2 L T R B h1 h2 h3 h4 h5
    rw [hgr.1] at this
    exact this

/-! ### Bridging the data buffer and the opacity grid -/

lemma alphaIndex_lt {w h x y : ℕ} (hx : x < w) (hy : y < h) :
    alphaIndex w x y < w * h * 4 := by
  rw [alphaIndex]
  calc y * w * 4 + x * 4 + 3 < y * w * 4 + x * 4 + 4 := by omega
  _ = (y * w + x + 1) * 4 := by ring
  _ ≤ (h * w) * 4 := by
      refine Nat.mul_le_mul_right 4 ?_
      calc y * w + x + 1 ≤ y * w + w := by omega
      _ = (y + 1) * w := by ring
      _ ≤ h * w := Nat.mul_le_mul_right w hy
  _ = w * h * 4 := by ring

lemma opaqueAt_eq_true_iff {data : List ℚ} {w h : ℕ} (thr : ℚ) {x y : ℕ}
    (hlen : w * h * 4 ≤ data.length) (hx : x < w) (hy : y < h) :
    opaqueAt data w thr x y = true ↔ thr ≤ data.getD (alphaIndex w x y) 0 := by
  have hidx : alphaIndex w x y < data.length := lt_of_lt_of_le (alphaIndex_lt hx hy) hlen
  rw [opaqueAt, List.getD_eq_getElem?_getD, List.getElem?_eq_getElem hidx]
  simp

/-! ### The `part_000` row profile: when is no rectangle found? -/

lemma revRange_find_max (p : ℕ → Bool) :
    ∀ w r, (List.range w).reverse.find? p = some r → ∀ x, x < w → p x = true → x ≤ r
  | 0, r, hf, x, hx, hp => absurd hx (by omega)
  | w + 1, r, hf, x, hx, hp => by
    rw [List.range_succ] at hf
    simp only [List.reverse_append, List.reverse_cons, List.reverse_nil, List.nil_append,
      List.singleton_append] at hf
    cases hpw : p w with
    | true =>
      rw [List.find?_cons_of_pos _ hpw] at hf
      injection hf with hr
      omega
    | false =>
      rw [List.find?_cons_of_neg _ (by simp [hpw])] at hf
      rcases Nat.lt_or_ge x w with hxw | hxw
      · exact revRange_find_max p w r hf x hxw hp
      · have hxeq : x = w := by omega
        subst hxeq
        rw [hpw] at hp
        exact absurd hp (by simp)

lemma pRowL_neg_iff (opq : ℕ → ℕ → Bool) (w y : ℕ) :
    pRowL opq w y = -1 ↔ ∀ x, x < w → opq x y = false := by
  rw [pRowL]
  cases hf : (List.range w).find? (fun x => opq x y) with
  | none =>
    refine iff_of_true rfl fun x hx => ?_
    have := List.find?_eq_none.1 hf x (List.mem_range.2 hx)
    simpa using this
  | some l =>
    refine iff_of_false (show ¬ ((l : ℤ) = -1) by omega) fun hall => ?_
    have hpl := List.find?_some hf
    have hlw : l < w := List.mem_range.1 (List.mem_of_find?_eq_some hf)
    simp only [hall l hlw] at hpl
    exact absurd hpl (by simp)

lemma pRowL_cases (opq : ℕ → ℕ → Bool) (w y : ℕ) :
    pRowL opq w y = -1 ∨ 0 ≤ pRowL opq w y := by
  rw [pRowL]
  cases hf : (List.range w).find? (fun x => opq x y) with
  | none => exact Or.inl rfl
  | some l => exact Or.inr (Int.natCast_nonneg l)

lemma pRowL_le_pRowR (opq : ℕ → ℕ → Bool) (w y : ℕ) (h : 0 ≤ pRowL opq w y) :
    pRowL opq w y ≤ pRowR opq w y := by
  rw [pRowL] at h ⊢
  cases hf : (List.range w).find? (fun x => opq x y) with
  | none =>
    rw [hf] at h
    norm_num at h
  | some l =>
    have hpl := List.find?_some hf
    have hlw : l < w := List.mem_range.1 (List.mem_of_find?_eq_some hf)
    rw [pRowR]
    cases hg : (List.range w).reverse.find? (fun x => opq x y) with
    | none =>
      have hcon := List.find?_eq_none.1 hg l (by rw [List.mem_reverse]; exact List.mem_range.2 hlw)
      simp only [hpl] at hcon
      exact absurd trivial hcon
    | some r =>
      have hlr := revRange_find_max (fun x => opq x y) w r hg l hlw hpl
      show (l : ℤ) ≤ (r : ℤ)
      exact_mod_cast hlr

lemma pPickGo_nonneg (opq : ℕ → ℕ → Bool) (w : ℕ) :
    ∀ ys (p : ℤ × ℤ), ((0 ≤ p.1 ∧ 0 ≤ p.2) ∨ p = (-1, -1)) →
      (0 ≤ (pPickGo opq w ys p).1 ↔ 0 ≤ p.1 ∨ ∃ y ∈ ys, 0 ≤ pRowL opq w y)
  | [], p, hp => by
    rw [pPickGo]
    simp
  | y :: ys, p, hp => by
    rw [pPickGo]
    split
    case isTrue hL =>
      have hww0 : 0 ≤ pRowR opq w y - pRowL opq w y := by
        have := pRowL_le_pRowR opq w y hL
        omega
      split
      case isTrue hww =>
        refine iff_of_true ((pPickGo_nonneg opq w ys _
          (Or.inl ⟨Int.natCast_nonneg y, hww0⟩)).2 (Or.inl (Int.natCast_nonneg y))) ?_
        exact Or.inr ⟨y, List.mem_cons_self y ys, hL⟩
      case isFalse hww =>
        have hp1 : 0 ≤ p.1 := by
          rcases hp with ⟨h1, _⟩ | hpe
          · exact h1
          · rw [hpe] at hww
            exfalso
            exact hww (by simpa using by omega : (-1 : ℤ) < pRowR opq w y - pRowL opq w y)
        exact iff_of_true ((pPickGo_nonneg opq w ys p hp).2 (Or.inl hp1)) (Or.inl hp1)
    case isFalse hL =>
      rw [pPickGo_nonneg opq w ys p hp]
      constructor
      · rintro (h1 | ⟨y', hy', hL'⟩)
        · exact Or.inl h1
        · exact Or.inr ⟨y', List.mem_cons_of_mem y hy', hL'⟩
      · rintro (h1 | ⟨y', hy', hL'⟩)
        · exact Or.inl h1
        · rcases List.mem_cons.1 hy' with rfl | hy''
          · exact absurd hL' hL
          · exact Or.inr ⟨y', hy'', hL'⟩

lemma pPickRow_neg_iff (opq : ℕ → ℕ → Bool) (w h : ℕ) :
    (pPickRow opq w h).1 < 0 ↔ ∀ x y, x < w → y < h → opq x y = false := by
  rw [pPickRow]
  have hiff := pPickGo_nonneg opq w (List.range h) (-1, -1) (Or.inr rfl)
  constructor
  · intro hneg x y hx hy
    by_contra hc
    have hopq : opq x y = true := by
      cases hq : opq x y
      · exact absurd hq hc
      · rfl
    have hL : 0 ≤ pRowL opq w y := by
      rcases pRowL_cases opq w y with hn | hpos
      · rw [pRowL_neg_iff] at hn
        rw [hn x hx] at hopq
        exact absurd hopq (by simp)
      · exact hpos
    have := hiff.2 (Or.inr ⟨y, List.mem_range.2 hy, hL⟩)
    omega
  · intro hall
    by_contra hc
    push_neg at hc
    rcases hiff.1 hc with h1 | ⟨y, hy, hL⟩
    · norm_num at h1
    · have hneg : pRowL opq w y = -1 :=
        (pRowL_neg_iff opq w y).2 fun x hx => hall x y hx (List.mem_range.1 hy)
      omega

lemma part000Find_none_iff (opq : ℕ → ℕ → Bool) (w h : ℕ) :
    part000Find opq w h = none ↔ ∀ x y, x < w → y < h → opq x y = false := by
  rw [← pPickRow_neg_iff opq w h, part000Find]
  split
  case isTrue hcond => exact iff_of_true rfl hcond
  case isFalse hcond => exact iff_of_false (by simp) hcond

/-! ### The finder depends only on the opacity classification of the grid -/

lemma updateHeights_congr {o1 o2 : ℕ → ℕ → Bool} {w y : ℕ} (hts : List ℕ)
    (hag : ∀ x, x < w → o1 x y = o2 x y) :
    updateHeights o1 y w hts = updateHeights o2 y w hts := by
  refine List.map_congr_left fun x hx => ?_
  rw [hag x (List.mem_range.1 hx)]

lemma rowsLoop_congr {o1 o2 : ℕ → ℕ → Bool} {w : ℕ} :
    ∀ ys hts best, (∀ y ∈ ys, ∀ x, x < w → o1 x y = o2 x y) →
      rowsLoop o1 w ys hts best = rowsLoop o2 w ys hts best
  | [], _, _, _ => rfl
  | y :: ys, hts, best, hag => by
    rw [rowsLoop, rowsLoop, updateHeights_congr hts (hag y (List.mem_cons_self y ys))]
    exact rowsLoop_congr ys _ _ fun y' hy' => hag y' (List.mem_cons_of_mem y hy')

lemma findMaxRect_congr {o1 o2 : ℕ → ℕ → Bool} {w h : ℕ}
    (hag : ∀ x y, x < w → y < h → o1 x y = o2 x y) :
    findMaxRect o1 w h = findMaxRect o2 w h := by
  have hb : findBest o1 w h = findBest o2 w h := by
    rw [findBest, findBest]
    refine rowsLoop_congr _ _ _ fun y hy x hx => ?_
    have hyh : y < h := by
      have := List.mem_range'.1 hy
      omega
    exact hag x y hx hyh
  rw [findMaxRect, findMaxRect, hb]

/-! ### Scan-order factorisation and the first-maximum property -/

lemma popLoop_factor (hs : List ℕ) (y i curH : ℕ) :
    ∀ stack best, popLoop hs y i curH stack best =
      (popStack hs curH stack, (popCands hs y i curH stack).foldl bestUpd best)
  | [], best => by
    rw [popLoop, popStack, popCands]
    rfl
  | t :: rest, best => by
    rw [popLoop, popStack, popCands]
    split
    case isTrue hp =>
      have hinit : (if hs.getD t 0 = 0 then best else bestUpd best (popCand hs y i t rest)) =
          List.foldl bestUpd best
            (if hs.getD t 0 = 0 then [] else [popCand hs y i t rest]) := by
        split <;> rfl
      rw [popLoop_factor hs y i curH rest _, hinit, ← List.foldl_append]
    case isFalse hp => rfl

lemma histLoop_factor (hs : List ℕ) (y w : ℕ) :
    ∀ is stack best, histLoop hs y w is stack best =
      (histCands hs y w is stack).foldl bestUpd best
  | [], _, best => rfl
  | i :: is, stack, best => by
    rw [histLoop, histCands, List.foldl_append, popLoop_factor]
    exact histLoop_factor hs y w is _ _

lemma rowsLoop_factor (opq : ℕ → ℕ → Bool) (w : ℕ) :
    ∀ ys hts best, rowsLoop opq w ys hts best =
      (rowsCands opq w ys hts).foldl bestUpd best
  | [], _, best => rfl
  | y :: ys, hts, best => by
    rw [rowsLoop, rowsCands, List.foldl_append, rowScan, histLoop_factor]
    exact rowsLoop_factor opq w ys _ _

lemma findBest_factor (opq : ℕ → ℕ → Bool) (w h : ℕ) :
    findBest opq w h = (scanCands opq w h).foldl bestUpd ⟨0, 0, 0, 0, 0⟩ := by
  rw [findBest, scanCands]
  exact rowsLoop_factor opq w _ _ _

lemma candMax_go (f : Best → ℕ) :
    ∀ (cs : List Best) (a : ℕ),
      cs.foldl (fun m c => max m c.area) a = max a (cs.foldl (fun m c => max m c.area) 0)
  | [], a => by simp
  | c :: cs, a => by
    rw [List.foldl_cons, List.foldl_cons, candMax_go f cs (max a c.area),
      candMax_go f cs (max 0 c.area)]
    omega

lemma candMax_cons (c : Best) (cs : List Best) :
    candMax (c :: cs) = max c.area (candMax cs) := by
  rw [candMax, candMax, List.foldl_cons, candMax_go (fun b => b.area) cs (max 0 c.area)]
  omega

lemma le_candMax {c : Best} : ∀ {cs : List Best}, c ∈ cs → c.area ≤ candMax cs := by
  intro cs
  induction cs with
  | nil => intro hmem; exact absurd hmem (by simp)
  | cons c' cs ih =>
    intro hmem
    rw [candMax_cons]
    rcases List.mem_cons.1 hmem with rfl | hmem'
    · omega
    · have := ih hmem'
      omega

lemma foldl_bestUpd_stay :
    ∀ (cs : List Best) (b : Best), (∀ c ∈ cs, c.area ≤ b.area) → cs.foldl bestUpd b = b
  | [], _, _ => rfl
  | c :: cs, b, hall => by
    have hle : c.area ≤ b.area := hall c (List.mem_cons_self c cs)
    rw [List.foldl_cons, show bestUpd b c = b from by rw [bestUpd, if_neg (by omega)]]
    exact foldl_bestUpd_stay cs b fun c' hc' => hall c' (List.mem_cons_of_mem c hc')

lemma foldl_bestUpd_first_max :
    ∀ (cands : List Best) (b : Best), b.area < candMax cands →
      cands.find? (fun c => decide (candMax cands ≤ c.area)) = some (cands.foldl bestUpd b)
  | [], b, hlt => by
    rw [show candMax [] = 0 from rfl] at hlt
    omega
  | c :: cs, b, hlt => by
    rw [candMax_cons] at hlt
    rcases le_or_lt (candMax cs) c.area with hc | hc
    · have hM : candMax (c :: cs) = c.area := by
        rw [candMax_cons]
        omega
      rw [hM, List.find?_cons_of_pos _ (by simp), List.foldl_cons,
        show bestUpd b c = c from by rw [bestUpd, if_pos (by omega)],
        foldl_bestUpd_stay cs c fun d hd => le_trans (le_candMax hd) hc]
    · have hM : candMax (c :: cs) = candMax cs := by
        rw [candMax_cons]
        omega
      have hb' : (bestUpd b c).area < candMax cs := by
        rw [bestUpd]
        split <;> omega
      rw [hM, List.find?_cons_of_neg _ (by simp; omega), List.foldl_cons]
      exact foldl_bestUpd_first_max cs (bestUpd b c) hb'

/-! ### Claim theorems -/

/-- C1: for every alpha grid of width `w ≥ 1` and height `h ≥ 1` that
contains at least one sample `≥ threshold`, the rectangle finder returns
a rectangle `{left, top, right, bottom}` with `left < right` and
`top < bottom`, every pixel inside it has opacity `≥ threshold`, and its
area `(right − left) × (bottom − top)` is maximal among all axis-aligned
rectangles of the grid whose every pixel has opacity `≥ threshold`. -/
theorem claim1_max_rectangle (w h : ℕ) (thr : ℚ) (data : List ℚ)
    (hw : 1 ≤ w) (hh : 1 ≤ h) (hlen : w * h * 4 ≤ data.length)
    (hop : ∃ x y, x < w ∧ y < h ∧ thr ≤ data.getD (alphaIndex w x y) 0) :
    ∃ r : Rect, findMaxRectData data w h thr = some r ∧
      r.left < r.right ∧ r.top < r.bottom ∧ r.right ≤ w ∧ r.bottom ≤ h ∧
      (∀ x y, r.left ≤ x → x < r.right → r.top ≤ y → y < r.bottom →
        thr ≤ data.getD (alphaIndex w x y) 0) ∧
      ∀ L T R B, L < R → T < B → R ≤ w → B ≤ h →
        (∀ x y, L ≤ x → x < R → T ≤ y → y < B → thr ≤ data.getD (alphaIndex w x y) 0) →
        (R - L) * (B - T) ≤ (r.right - r.left) * (r.bottom - r.top) := by
  obtain ⟨x, y, hx, hy, hthr⟩ := hop
  have ho : opaqueAt data w thr x y = true := (opaqueAt_eq_true_iff thr hlen hx hy).2 hthr
  obtain ⟨r, hfind, h1, h2, h3, h4, h5, h6⟩ :=
    findMaxRect_spec (opaqueAt data w thr) w h hx hy ho
  refine ⟨r, hfind, h1, h2, h3, h4, ?_, ?_⟩
  · intro a b ha1 ha2 hb1 hb2
    have haw : a < w := lt_of_lt_of_le ha2 h3
    have hbh : b < h := lt_of_lt_of_le hb2 h4
    exact (opaqueAt_eq_true_iff thr hlen haw hbh).1 (h5 a b ha1 ha2 hb1 hb2)
  · intro L T R B hLR hTB hRw hBh hall
    refine h6 L T R B hLR hTB hRw hBh fun a b ha1 ha2 hb1 hb2 => ?_
    exact (opaqueAt_eq_true_iff thr hlen (lt_of_lt_of_le ha2 hRw)
      (lt_of_lt_of_le hb2 hBh)).2 (hall a b ha1 ha2 hb1 hb2)

theorem claim1_witness :
    (findMaxRectData [0, 0, 0, 9, 0, 0, 0, 0] 2 1 2).isSome = true := by
  obtain ⟨r, hr, -⟩ := claim1_max_rectangle 2 1 2 [0, 0, 0, 9, 0, 0, 0, 0]
    (by decide) (by decide) (by decide) ⟨0, 0, by decide, by decide, by decide⟩
  rw [hr]
  rfl

/-- C2 (counterexample): the histogram-stack search of `src/main.js` and
the row-profile search of `src/unnamed/part_000` do NOT always produce
the same result: on the fully opaque 1×1 grid the former returns
`{0, 0, 1, 1}` and the latter `{0, 0, 0, 0}`. -/
theorem claim2_counterexample :
    rectsAgree (findMaxRectData [0, 0, 0, 255] 1 1 2)
      (part000FindData [0, 0, 0, 255] 1 1 2) = false := by decide

/-- C2 (amended): for every alpha grid, width, height and threshold, the
two searches agree on WHETHER a rectangle is found — both return no
rectangle exactly when no sample reaches the threshold — but the
rectangles they return may differ. -/
theorem claim2_both_none_iff (data : List ℚ) (w h : ℕ) (thr : ℚ) :
    findMaxRectData data w h thr = none ↔ part000FindData data w h thr = none := by
  rw [findMaxRectData, part000FindData, findMaxRect_none_iff, part000Find_none_iff]

/-- C3: `src/main.js` does NOT dispose the acquired pixel buffer on the
success path: on a successfully acquired fully-opaque 4×4 RGBA buffer the
crop is applied and `dispose` runs zero times, not once (the early-exit
paths do dispose; `src/unnamed/part_000` line 171 disposes on this path). -/
theorem claim3_success_path_leak :
    runCropModalMain 4 4 (some ⟨4, 8, List.replicate 64 255, some ⟨0, 0, 4, 4⟩⟩) =
      ⟨0, some ⟨1, 1, 3, 3⟩⟩ := by decide

/-- C4: the coordinate mapper computes the four clamped coordinates
`clamp(offset + edge ± inset, 0, doc)` and produces a crop region exactly
when `cropLeft < cropRight` and `cropTop < cropBottom`; rectangle
`{2, 1, 8, 5}` with offset `(0,0)`, inset 1, document 10×10 maps to
`{3, 2, 7, 4}`, and the same rectangle with `right − left ≤ 2 × inset`
maps to no crop. -/
theorem claim4_crop_mapping :
    (∀ (r : SB) (offX offY inset docW docH : ℤ),
      toCropRegion r offX offY inset docW docH =
        if clamp (offX + r.left + inset) 0 docW < clamp (offX + r.right - inset) 0 docW ∧
            clamp (offY + r.top + inset) 0 docH < clamp (offY + r.bottom - inset) 0 docH
        then some ⟨clamp (offX + r.left + inset) 0 docW, clamp (offY + r.top + inset) 0 docH,
          clamp (offX + r.right - inset) 0 docW, clamp (offY + r.bottom - inset) 0 docH⟩
        else none) ∧
    toCropRegion ⟨2, 1, 8, 5⟩ 0 0 1 10 10 = some ⟨3, 2, 7, 4⟩ ∧
    ∀ l r : ℤ, r - l ≤ 2 * INSET →
      toCropRegion ⟨l, 1, r, 5⟩ 0 0 INSET 10 10 = none := by
  refine ⟨fun r offX offY inset docW docH => rfl, by decide, ?_⟩
  intro l r hlr
  have hIN : INSET = 1 := rfl
  rw [hIN] at hlr
  rw [toCropRegion, hIN]
  split
  case isTrue hcond =>
    exfalso
    obtain ⟨hc1, -⟩ := hcond
    simp only [SB.mk.injEq] at hc1
    omega
  case isFalse => rfl

theorem claim4_witness : toCropRegion ⟨2, 1, 4, 5⟩ 0 0 INSET 10 10 = none :=
  claim4_crop_mapping.2.2 2 4 (by decide)

/-- C5: for a `w × h` alpha grid in which every sample is at or above the
threshold, the rectangle finder returns exactly
`{left: 0, top: 0, right: w, bottom: h}`. -/
theorem claim5_fully_opaque (w h : ℕ) (thr : ℚ) (data : List ℚ)
    (hw : 1 ≤ w) (hh : 1 ≤ h) (hlen : w * h * 4 ≤ data.length)
    (hall : ∀ x y, x < w → y < h → thr ≤ data.getD (alphaIndex w x y) 0) :
    findMaxRectData data w h thr = some ⟨0, 0, w, h⟩ := by
  have hopq : ∀ x y, x < w → y < h → opaqueAt data w thr x y = true := fun x y hx hy =>
    (opaqueAt_eq_true_iff thr hlen hx hy).2 (hall x y hx hy)
  obtain ⟨r, hfind, h1, h2, h3, h4, h5, h6⟩ :=
    findMaxRect_spec (opaqueAt data w thr) w h hw hh (hopq 0 0 hw hh)
  have hfull := h6 0 0 w h hw hh (le_refl w) (le_refl h)
    fun a b ha1 ha2 hb1 hb2 => hopq a b ha2 hb2
  rw [Nat.sub_zero, Nat.sub_zero] at hfull
  have hrl : r.right - r.left ≤ w := by omega
  have hbt : r.bottom - r.top ≤ h := by omega
  have hwside : r.right - r.left = w := by
    by_contra hc
    have hstep : (r.right - r.left) * (r.bottom - r.top) ≤ (w - 1) * h :=
      Nat.mul_le_mul (by omega) hbt
    have hint : (w - 1) * h + h = w * h := by
      have hw1 : w - 1 + 1 = w := by omega
      calc (w - 1) * h + h = ((w - 1) + 1) * h := by ring
        _ = w * h := by rw [hw1]
    omega
  have hhside : r.bottom - r.top = h := by
    by_contra hc
    have hstep : (r.right - r.left) * (r.bottom - r.top) ≤ w * (h - 1) :=
      Nat.mul_le_mul hrl (by omega)
    have hint : w * (h - 1) + w = w * h := by
      have hh1 : h - 1 + 1 = h := by omega
      calc w * (h - 1) + w = w * ((h - 1) + 1) := by ring
        _ = w * h := by rw [hh1]
    omega
  have hl : r.left = 0 := by omega
  have hr : r.right = w := by omega
  have ht : r.top = 0 := by omega
  have hb : r.bottom = h := by omega
  have hrect : r = ⟨0, 0, w, h⟩ := Rect.ext hl ht hr hb
  rw [hrect] at hfind
  exact hfind

theorem claim5_witness : findMaxRectData (List.replicate 16 9) 2 2 2 = some ⟨0, 0, 2, 2⟩ :=
  claim5_fully_opaque 2 2 2 (List.replicate 16 9) (by decide) (by decide) (by decide)
    (by intro x y hx hy; interval_cases x <;> interval_cases y <;> decide)

/-- C6: for every alpha grid in which every sample is strictly below the
threshold, the rectangle finder returns `None` and the modal body applies
no crop (the model is a total function, so no error is raised). -/
theorem claim6_all_transparent (w h : ℕ) (thr : ℚ) (data : List ℚ)
    (hlen : w * h * 4 ≤ data.length)
    (hbelow : ∀ x y, x < w → y < h → data.getD (alphaIndex w x y) 0 < thr) :
    findMaxRectData data w h thr = none ∧
      ∀ (width height cs : ℤ) (sb : SB),
        (sb.right - sb.left).toNat = w → (sb.bottom - sb.top).toNat = h →
        alphaThreshold cs = thr → data.length ≠ 0 →
        (runCropModalMain width height (some ⟨4, cs, data, some sb⟩)).cropped = none := by
  have hfa : ∀ x y, x < w → y < h → opaqueAt data w thr x y = false := by
    intro x y hx hy
    cases hq : opaqueAt data w thr x y
    · rfl
    · have hle := (opaqueAt_eq_true_iff thr hlen hx hy).1 hq
      have hb := hbelow x y hx hy
      exact absurd hle (not_le.2 hb)
  have hnone : findMaxRectData data w h thr = none := (findMaxRect_none_iff _ w h).2 hfa
  refine ⟨hnone, ?_⟩
  intro width height cs sb hw' hh' hthr hne
  rw [runCropModalMain]
  rw [if_neg (by simp), if_neg hne]
  simp only [Option.getD_some]
  rw [hw', hh', hthr, hnone]

theorem claim6_witness :
    findMaxRectData [0, 0, 0, 0, 0, 0, 0, 1] 2 1 2 = none ∧
      (runCropModalMain 2 1
        (some ⟨4, 8, [0, 0, 0, 0, 0, 0, 0, 1], some ⟨0, 0, 2, 1⟩⟩)).cropped = none := by
  have hc := claim6_all_transparent 2 1 2 [0, 0, 0, 0, 0, 0, 0, 1] (by decide)
    (by intro x y hx hy; interval_cases x <;> interval_cases y <;> decide)
  exact ⟨hc.1, hc.2 2 1 8 ⟨0, 0, 2, 1⟩ (by decide) (by decide) (by decide) (by decide)⟩

/-- C7: `alphaThreshold` is a total pure function: it returns 256 for
component size 16, 0.002 for 32, and 2 for every other input. -/
theorem claim7_alpha_threshold :
    alphaThreshold 16 = 256 ∧ alphaThreshold 32 = 0.002 ∧ alphaThreshold 8 = 2 ∧
      ∀ c : ℤ, c ≠ 16 → c ≠ 32 → alphaThreshold c = 2 := by
  refine ⟨rfl, rfl, rfl, ?_⟩
  intro c h16 h32
  rw [alphaThreshold, if_neg h16, if_neg h32]

theorem claim7_witness : alphaThreshold 77 = 2 :=
  claim7_alpha_threshold.2.2.2 77 (by decide) (by decide)

/-- C8: inside the histogram update of the rectangle finder, a sample exactly
equal to the threshold is classified as opaque (the column height is
extended), and a sample one less than the threshold is not (the column
height is reset to 0) — for every grid position and threshold. -/
theorem claim8_threshold_boundary :
    (∀ (data : List ℚ) (w : ℕ) (thr : ℚ) (hts : List ℕ) (x y : ℕ), x < w →
      data[alphaIndex w x y]? = some thr →
      (updateHeights (opaqueAt data w thr) y w hts).getD x 0 = hts.getD x 0 + 1) ∧
    ∀ (data : List ℚ) (w : ℕ) (thr : ℚ) (hts : List ℕ) (x y : ℕ), x < w →
      data[alphaIndex w x y]? = some (thr - 1) →
      (updateHeights (opaqueAt data w thr) y w hts).getD x 0 = 0 := by
  constructor
  · intro data w thr hts x y hx hget
    rw [updateHeights, getD_map_range _ hx,
      show opaqueAt data w thr x y = true from by rw [opaqueAt, hget]; simp]
    rfl
  · intro data w thr hts x y hx hget
    rw [updateHeights, getD_map_range _ hx,
      show opaqueAt data w thr x y = false from by
        rw [opaqueAt, hget]
        simp only [decide_eq_false_iff_not, not_le]
        linarith]
    rfl

theorem claim8_witness :
    (updateHeights (opaqueAt [0, 0, 0, 2] 1 2) 0 1 [5]).getD 0 0 = [5].getD 0 0 + 1 ∧
      (updateHeights (opaqueAt [0, 0, 0, 1] 1 2) 0 1 [5]).getD 0 0 = 0 :=
  ⟨claim8_threshold_boundary.1 [0, 0, 0, 2] 1 2 [5] 0 0 (by decide) (by decide),
    claim8_threshold_boundary.2 [0, 0, 0, 1] 1 2 [5] 0 0 (by decide)
      (by norm_num [alphaIndex])⟩

/-- C9: a candidate rectangle replaces the recorded best only when its
area is strictly greater; consequently, whenever any positive-area
candidate exists, the scan result is the first candidate in scan order
(topmost row, then earliest scan position) whose area attains the
maximum. -/
theorem claim9_strict_replacement :
    (∀ best c : Best, (best.area < c.area → bestUpd best c = c) ∧
      (¬ best.area < c.area → bestUpd best c = best)) ∧
    ∀ (opq : ℕ → ℕ → Bool) (w h : ℕ), 0 < candMax (scanCands opq w h) →
      (scanCands opq w h).find? (fun c => decide (candMax (scanCands opq w h) ≤ c.area)) =
        some (findBest opq w h) := by
  constructor
  · intro best c
    constructor
    · intro hlt
      rw [bestUpd, if_pos hlt]
    · intro hlt
      rw [bestUpd, if_neg hlt]
  · intro opq w h hpos
    rw [findBest_factor]
    exact foldl_bestUpd_first_max (scanCands opq w h) ⟨0, 0, 0, 0, 0⟩ hpos

theorem claim9_witness :
    (scanCands (opaqueAt [0, 0, 0, 9, 0, 0, 0, 0, 0, 0, 0, 9] 3 2) 3 1).find?
      (fun c => decide (candMax
        (scanCands (opaqueAt [0, 0, 0, 9, 0, 0, 0, 0, 0, 0, 0, 9] 3 2) 3 1) ≤ c.area)) =
      some (findBest (opaqueAt [0, 0, 0, 9, 0, 0, 0, 0, 0, 0, 0, 9] 3 2) 3 1) :=
  claim9_strict_replacement.2 (opaqueAt [0, 0, 0, 9, 0, 0, 0, 0, 0, 0, 0, 9] 3 2) 3 1
    (by decide)

/-- C10: the rectangle finder is a deterministic pure function of the
alpha samples alone: re-running it on the same buffer yields the same
result, and two buffers (long enough for the grid) that agree on every
4th component of each pixel group yield identical results regardless of
their RGB components. -/
theorem claim10_alpha_only :
    (∀ (data : List ℚ) (w h : ℕ) (thr : ℚ),
      findMaxRectData data w h thr = findMaxRectData data w h thr) ∧
    ∀ (data₁ data₂ : List ℚ) (w h : ℕ) (thr : ℚ),
      w * h * 4 ≤ data₁.length → w * h * 4 ≤ data₂.length →
      (∀ p, p < w * h → data₁.getD (4 * p + 3) 0 = data₂.getD (4 * p + 3) 0) →
      findMaxRectData data₁ w h thr = findMaxRectData data₂ w h thr := by
  constructor
  · intro data w h thr
    rfl
  · intro data₁ data₂ w h thr hlen₁ hlen₂ hag
    rw [findMaxRectData, findMaxRectData]
    refine findMaxRect_congr fun x y hx hy => ?_
    have hp : y * w + x < w * h := by
      calc y * w + x < y * w + w := by omega
      _ = (y + 1) * w := by ring
      _ ≤ h * w := Nat.mul_le_mul_right w hy
      _ = w * h := by ring
    have hidx : alphaIndex w x y = 4 * (y * w + x) + 3 := by
      rw [alphaIndex]
      ring
    have hidx1 : alphaIndex w x y < data₁.length := lt_of_lt_of_le (alphaIndex_lt hx hy) hlen₁
    have hidx2 : alphaIndex w x y < data₂.length := lt_of_lt_of_le (alphaIndex_lt hx hy) hlen₂
    have hveq : data₁[alphaIndex w x y] = data₂[alphaIndex w x y] := by
      have h1 := hag (y * w + x) hp
      rw [← hidx, List.getD_eq_getElem?_getD, List.getD_eq_getElem?_getD,
        List.getElem?_eq_getElem hidx1, List.getElem?_eq_getElem hidx2] at h1
      simpa using h1
    rw [opaqueAt, opaqueAt, List.getElem?_eq_getElem hidx1, List.getElem?_eq_getElem hidx2,
      hveq]

theorem claim10_witness :
    findMaxRectData [0, 0, 0, 5, 1, 2, 3, 0] 2 1 2 =
      findMaxRectData [9, 9, 9, 5, 7, 7, 7, 0] 2 1 2 :=
  claim10_alpha_only.2 [0, 0, 0, 5, 1, 2, 3, 0] [9, 9, 9, 5, 7, 7, 7, 0] 2 1 2
    (by decide) (by decide) (by intro p hp; interval_cases p <;> decide)

end Crop
